import Mathlib

/-!
Verification development for the `spellchk` spell-checking tool.

Words and file contents are modelled as `List Char` (Rust iterates `char`s /
grapheme clusters; grapheme clusters are modelled as single characters, which
is exact for all inputs evaluated here).  Rust byte indices are modelled via
`Char.utf8Size` sums.  Rust's `String` ordering (byte-lexicographic over
UTF-8) coincides with the lexicographic order on code points, i.e. with
Mathlib's linear order on `List Char`.  Fallible / panicking code paths are
modelled with `Option`: `none` models a Rust panic.
-/

namespace Spellchk

/-- Words and text buffers: sequences of Unicode scalar values. -/
abbrev Str := List Char

/-- Rust `str::len`: the length of the UTF-8 encoding in bytes. -/
def utf8Len (s : Str) : Nat := (s.map Char.utf8Size).sum

/-- Models Rust `char::is_alphabetic` (Unicode `Alphabetic` property),
restricted to the ASCII range; every concrete input evaluated in this file is
ASCII, where the two agree. -/
def isAlphabetic (c : Char) : Bool := c.isAlpha

/-- Models Rust `char::is_numeric`, restricted to the ASCII range. -/
def isNumeric (c : Char) : Bool := c.isDigit

/-- Models Rust `str::to_lowercase` / `char::to_lowercase().next().unwrap()`,
restricted to one-to-one ASCII lowercasing. -/
def toLowerStr (s : Str) : Str := s.map Char.toLower

/-- Rust `&word[..n]` for a byte index `n`: the characters spanning the first
`n` bytes of the UTF-8 encoding.  Returns `none` (a Rust panic) when `n` is
not a character boundary or lies beyond the end of the string. -/
def byteSlice : Str → Nat → Option Str
  | _, 0 => some []
  | [], _ + 1 => none
  | c :: cs, n + 1 =>
    if c.utf8Size ≤ n + 1 then (byteSlice cs (n + 1 - c.utf8Size)).map (c :: ·)
    else none

/-- Character count consumed when dropping `n` bytes (used to model byte-based
context slicing; truncates at the enclosing character boundary). -/
def byteDrop : Str → Nat → Str
  | [], _ => []
  | c :: cs, n => if c.utf8Size ≤ n then byteDrop cs (n - c.utf8Size) else c :: cs

/-- Take the characters spanning (at most) the first `n` bytes. -/
def byteTake : Str → Nat → Str
  | [], _ => []
  | c :: cs, n => if c.utf8Size ≤ n then c :: byteTake cs (n - c.utf8Size) else []

/-- Rust `str::find(pat)`: index (here: character index) of the first
occurrence of `pat` as a contiguous substring, if any.  (`/`-characters are
ASCII, so byte and character occurrence positions identify the same
occurrence.) -/
def strFind : Str → Str → Option Nat
  | s, pat =>
    if pat.isPrefixOf s then some 0
    else
      match s with
      | [] => none
      | _ :: rest => (strFind rest pat).map (· + 1)

/-- Rust `str::contains(pat)`. -/
def containsSubstr (s pat : Str) : Bool := (strFind s pat).isSome

/-- Rust `str::replacen(pat, rep, 1)`: replace the first occurrence of `pat`
(if any) by `rep`. -/
def replaceFirst (s pat rep : Str) : Str :=
  match strFind s pat with
  | none => s
  | some i => s.take i ++ rep ++ s.drop (i + pat.length)

/-- Split a buffer at every newline character (the pieces do not contain
the newline itself; an empty buffer yields one empty piece). -/
def splitNl : Str → List Str
  | [] => [[]]
  | c :: cs =>
    if c = '\n' then [] :: splitNl cs
    else
      match splitNl cs with
      | [] => [[c]]
      | p :: ps => (c :: p) :: ps

/-- Strip one carriage return at the end of a newline-terminated piece. -/
def stripCr (l : Str) : Str := if l.getLast? = some '\r' then l.dropLast else l

/-- Rust `str::lines()`: pieces split at `'\n'`, a `'\r'` immediately before a
`'\n'` removed, and no final empty line when the buffer ends with `'\n'`. -/
def linesOf (s : Str) : List Str :=
  let ps := splitNl s
  let init := (ps.dropLast).map stripCr
  match ps.getLast? with
  | some [] => init
  | some last => init ++ [last]
  | none => []

/-! ### Stable sorting

Rust's `slice::sort` / `sort_by_key` are stable sorts; a stable sort by a
total preorder is extensionally unique, so it is modelled by a stable
insertion sort (kernel-computable, unlike `List.mergeSort`). -/

/-- Insert `x` into a sorted list, before the first element `y` with
`le x y` (so that ties keep the original, later-inserted element to the
right: stability). -/
def insertLe (le : α → α → Bool) (x : α) : List α → List α
  | [] => [x]
  | y :: ys => if le x y then x :: y :: ys else y :: insertLe le x ys

/-- Stable insertion sort; models Rust `sort_by` / `sort_by_key`. -/
def stableSort (le : α → α → Bool) : List α → List α
  | [] => []
  | x :: xs => insertLe le x (stableSort le xs)

theorem insertLe_perm (le : α → α → Bool) (x : α) (l : List α) :
    List.Perm (insertLe le x l) (x :: l) := by
  induction l with
  | nil => simp [insertLe]
  | cons y ys ih =>
    simp only [insertLe]
    split
    · exact List.Perm.refl _
    · exact ((ih.cons y).trans (List.Perm.swap x y ys))

theorem stableSort_perm (le : α → α → Bool) (l : List α) :
    List.Perm (stableSort le l) l := by
  induction l with
  | nil => simp [stableSort]
  | cons x xs ih =>
    exact (insertLe_perm le x (stableSort le xs)).trans (ih.cons x)

theorem mem_stableSort (le : α → α → Bool) {x : α} {l : List α} :
    x ∈ stableSort le l ↔ x ∈ l :=
  (stableSort_perm le l).mem_iff

theorem insertLe_pairwise (le : α → α → Bool)
    (htrans : ∀ a b c, le a b = true → le b c = true → le a c = true)
    (htotal : ∀ a b, (le a b || le b a) = true)
    (x : α) (l : List α) (hl : l.Pairwise (fun a b => le a b = true)) :
    (insertLe le x l).Pairwise (fun a b => le a b = true) := by
  induction l with
  | nil => simp [insertLe]
  | cons y ys ih =>
    rcases hl with _ | ⟨hy, hys⟩
    simp only [insertLe]
    split
    · rename_i hxy
      refine List.Pairwise.cons ?_ (List.Pairwise.cons hy hys)
      intro z hz
      rcases List.mem_cons.mp hz with rfl | hz
      · exact hxy
      · exact htrans _ _ _ hxy (hy z hz)
    · rename_i hxy
      have hyx : le y x = true := by
        have := htotal x y
        rcases Bool.or_eq_true_iff.mp this with h | h
        · exact absurd h hxy
        · exact h
      refine List.Pairwise.cons ?_ (ih hys)
      intro z hz
      rcases List.mem_cons.mp ((insertLe_perm le x ys).mem_iff.mp hz) with rfl | h
      · exact hyx
      · exact hy z h

theorem stableSort_pairwise (le : α → α → Bool)
    (htrans : ∀ a b c, le a b = true → le b c = true → le a c = true)
    (htotal : ∀ a b, (le a b || le b a) = true) (l : List α) :
    (stableSort le l).Pairwise (fun a b => le a b = true) := by
  induction l with
  | nil => simp [stableSort]
  | cons x xs ih => exact insertLe_pairwise le htrans htotal x _ ih

theorem stableSort_nodup (le : α → α → Bool) {l : List α} (h : l.Nodup) :
    (stableSort le l).Nodup :=
  ((stableSort_perm le l).symm.nodup h)

/-! ### Levenshtein edit distance (`suggestions::edit_distance`)

The source builds the full Wagner–Fischer matrix row by row; `levStep`
computes one inner loop (one row) and `levLoop` the outer loop. -/

/-- Inner DP loop: `ac` is the current character of `a`; the remaining
characters of `b` are paired with the tail of the previous row (`up` is
`matrix[i][j+1]`), `diag` is `matrix[i][j]` and `left` is `matrix[i+1][j]`;
produces the remainder of row `i+1`. -/
def levStep (ac : Char) : Str → List Nat → Nat → Nat → List Nat
  | [], _, _, _ => []
  | _ :: _, [], _, _ => []
  | bc :: bs, up :: ups, diag, left =>
    let cost := if ac = bc then 0 else 1
    let cur := min (min (up + 1) (left + 1)) (diag + cost)
    cur :: levStep ac bs ups up cur

/-- Outer DP loop over the characters of `a`; `prev` is row `i`, `i` the row
index; returns the final row. -/
def levLoop (b : Str) : Str → List Nat → Nat → List Nat
  | [], prev, _ => prev
  | ac :: arest, prev, i =>
    match prev with
    | [] => []
    | p0 :: prest => levLoop b arest ((i + 1) :: levStep ac b prest p0 (i + 1)) (i + 1)

/-- `suggestions::edit_distance`: classic Levenshtein distance over Unicode
scalar values, unit costs.  `matrix[a_len][b_len]` is the last entry of the
final row. -/
def edit_distance (a b : Str) : Nat :=
  if a.length = 0 then b.length
  else if b.length = 0 then a.length
  else (levLoop b a (List.range (b.length + 1)) 0).getLastD 0

/-! ### Dictionary (`checker::dictionary`)

A `Dictionary` wraps an `fst::Set`: an immutable set of byte strings whose
stream enumerates keys in strictly increasing byte order.  It is modelled by
its key sequence (a list of words).  `SetBuilder`/`Set::new` round-trip this
sequence through the on-disk file, so `build_from_words` directly produces
the key sequence of the dictionary that `load_from_path` reads back. -/

abbrev Dict := List Str

/-- `Dictionary::contains`: exact membership test. -/
def dictContains (d : Dict) (w : Str) : Bool := d.contains w

/-- `Dictionary::words_with_prefix`: all dictionary words sharing the given
prefix, in stored (sorted) order — the `starts_with` automaton search. -/
def wordsStartingWith (d : Dict) (p : Str) : List Str :=
  d.filter (fun w => p.isPrefixOf w)

/-- `Dictionary::all_words`: full enumeration in stored order. -/
def all_words (d : Dict) : List Str := d

/-- Rust `Vec::dedup`: remove consecutive repeated elements. -/
def dedupAdj : List Str → List Str
  | [] => []
  | [a] => [a]
  | a :: b :: rest => if a = b then dedupAdj (b :: rest) else a :: dedupAdj (b :: rest)

/-- Rust `String` order: byte-lexicographic on UTF-8, which equals the
lexicographic order on scalar values. -/
def strLe (a b : Str) : Bool := decide (a ≤ b)

/-- `Dictionary::build_from_words` followed by loading the produced file:
sort, dedup, and insert in order into the FST; the dictionary read back has
exactly this key sequence. -/
def build_from_words (L : List Str) : Dict := dedupAdj (stableSort strLe L)

/-! ### Compound word splitting (`checker::tokenizer::split_compound_word`;
an identical copy lives in `parser::plaintext`). -/

/-- The accumulation loop of `split_compound_word`: `res` is the result
vector, `cur` the current sub-word. -/
def scwLoop : List Char → List Str → Str → List Str
  | [], res, cur => if cur ≠ [] then res ++ [cur] else res
  | c :: cs, res, cur =>
    if c = '_' ∨ c = '-' then
      scwLoop cs (if cur ≠ [] then res ++ [cur] else res) []
    else if c.isUpper ∧ cur ≠ [] then
      scwLoop cs (res ++ [cur]) [c.toLower]
    else scwLoop cs res (cur ++ [c])

/-- `split_compound_word`: split on `_`/`-` and at lower-to-upper camelCase
boundaries (the uppercase letter starts a new, lowercased sub-word); a word
producing no pieces is returned unchanged as a singleton. -/
def split_compound_word (w : Str) : List Str :=
  let res := scwLoop w [] []
  if res = [] then [w] else res

/-! ### Suggestion engine (`checker::suggestions`) -/

/-- The fixed table of common letter confusions. -/
def common_replacements : List (Char × Char) :=
  [('a', 'e'), ('e', 'i'), ('i', 'o'), ('o', 'u'), ('b', 'v'), ('c', 'k'),
   ('f', 'v'), ('g', 'j'), ('m', 'n'), ('s', 'z'), ('t', 'd')]

/-- `generate_transformations`: every single-character deletion, every
adjacent transposition, and every substitution from the confusion table, in
that order. -/
def generate_transformations (word : Str) : List Str :=
  let chars := word
  let deletions := (List.range chars.length).map (fun i => chars.eraseIdx i)
  let transpositions := (List.range (chars.length - 1)).map (fun i =>
    chars.take i ++ ((chars.drop i).take 2).reverse ++ chars.drop (i + 2))
  let replacements := (List.range chars.length).flatMap (fun i =>
    common_replacements.filterMap (fun ft =>
      if chars.getD i ' ' = ft.1 then some (chars.set i ft.2) else none))
  deletions ++ transpositions ++ replacements

/-- Stage-2 loop of `generate`: push each transformation that is a dictionary
word and not already present; when the bound is reached, truncate and stop
(the in-loop early return of the source). -/
def pushTransforms (d : Dict) (maxS : Nat) : List Str → List Str → List Str
  | acc, [] => acc
  | acc, t :: ts =>
    if dictContains d t && !acc.contains t then
      let acc2 := acc ++ [t]
      if maxS ≤ acc2.length then acc2.take maxS
      else pushTransforms d maxS acc2 ts
    else pushTransforms d maxS acc ts

/-- Stage-3 loop of `generate`: push 2-character-prefix candidates with edit
distance ≤ 3 that are not already present, stopping at the bound. -/
def pushPrefixCandidates (word : Str) (maxS : Nat) : List Str → List Str → List Str
  | acc, [] => acc
  | acc, c :: cs =>
    let dist := edit_distance word c
    if dist ≤ 3 && !acc.contains c then
      let acc2 := acc ++ [c]
      if maxS ≤ acc2.length then acc2.take maxS
      else pushPrefixCandidates word maxS acc2 cs
    else pushPrefixCandidates word maxS acc cs

/-- Stage-4 pre-filtered pool: dictionary words whose byte length differs
from the misspelled word's by at most 1, capped at the first 100. -/
def stage4Pool (word : Str) (d : Dict) : List Str :=
  ((all_words d).filter (fun w =>
    ((utf8Len w : Int) - (utf8Len word : Int)).natAbs ≤ 1)).take 100

/-- Stage-4 `filter_map` body: keep a pool word when its edit distance is ≤ 2
and it is not already suggested, paired with the distance. -/
def stage4Filter (word : Str) (sugg : List Str) (w : Str) : Option (Nat × Str) :=
  let dist := edit_distance word w
  if dist ≤ 2 && !sugg.contains w then some (dist, w) else none

/-- Stage-4 candidate list of `generate`: the filtered pool sorted ascending
by edit distance. -/
def stage4Candidates (word : Str) (d : Dict) (sugg : List Str) : List (Nat × Str) :=
  stableSort (fun a b => decide (a.1 ≤ b.1))
    ((stage4Pool word d).filterMap (stage4Filter word sugg))

/-- Stage-4 push loop: append candidate words in sorted order, breaking once
the bound is reached. -/
def pushCandidates (maxS : Nat) : List Str → List (Nat × Str) → List Str
  | acc, [] => acc
  | acc, c :: cs =>
    let acc2 := acc ++ [c.2]
    if maxS ≤ acc2.length then acc2
    else pushCandidates maxS acc2 cs

/-- `suggestions::generate`: the staged, cost-increasing search.  Rust byte
slicing `&word[..3]` / `&word[..2]` panics when the byte index is not a
character boundary; `none` models that panic. -/
def generate (word : Str) (d : Dict) (max_suggestions : Nat) : Option (List Str) :=
  let s0 : Option (List Str) :=
    if 3 ≤ utf8Len word then
      match byteSlice word 3 with
      | none => none
      | some p =>
        let pm := stableSort
          (fun a b => decide (edit_distance word a ≤ edit_distance word b))
          (wordsStartingWith d p)
        let pm := pm.take max_suggestions
        some (pm.filter (fun w => decide (edit_distance word w ≤ 2)))
    else some []
  match s0 with
  | none => none
  | some s1 =>
    if max_suggestions ≤ s1.length then some (s1.take max_suggestions)
    else
      let s2 := pushTransforms d max_suggestions s1 (generate_transformations word)
      if max_suggestions ≤ s2.length then some (s2.take max_suggestions)
      else
        let s3o : Option (List Str) :=
          if s2.length < max_suggestions ∧ 2 ≤ utf8Len word then
            match byteSlice word 2 with
            | none => none
            | some p =>
              let pm := stableSort
                (fun a b => decide (edit_distance word a ≤ edit_distance word b))
                (wordsStartingWith d p)
              some (pushPrefixCandidates word max_suggestions s2 pm)
          else some s2
        match s3o with
        | none => none
        | some s3 =>
          if max_suggestions ≤ s3.length then some (s3.take max_suggestions)
          else
            let s4 :=
              if s3.length < max_suggestions ∧ utf8Len word ≤ 3 then
                pushCandidates max_suggestions s3 (stage4Candidates word d s3)
              else s3
            some (s4.take max_suggestions)

/-! ### Parsers (`parser::source_code`, `parser::plaintext`, `parser::mod`)

Position fields (`column`, word offsets) are byte indices in the source;
they are modelled as character indices here and coincide on ASCII lines (all
concretely evaluated inputs are ASCII).  The `start`/`end` byte-range fields
of the source `TextSpan` are not modelled (no claim concerns them; the
plain-text parser does not even populate them). -/

def squote : Char := Char.ofNat 39
def dquote : Char := Char.ofNat 34
def bslash : Char := Char.ofNat 92

/-- `parser::TextSpan` (without the best-effort byte range). -/
structure TextSpan where
  text : Str
  line : Nat
  column : Nat
  original_text : Str
deriving DecidableEq, Repr

/-- The scanning loop of `source_code::extract_words`: alphabetic runs of
byte length > 1, each with its start offset.  `cur` is `current_word`,
`start` is `word_start`, `inw` is `in_word`. -/
def ewLoop : Str → Nat → Str → Nat → Bool → List (Str × Nat)
  | [], _, cur, start, inw =>
    if inw ∧ cur ≠ [] ∧ 1 < utf8Len cur then [(cur, start)] else []
  | c :: cs, pos, cur, start, inw =>
    if isAlphabetic c then
      let start2 := if !inw then pos else start
      ewLoop cs (pos + 1) (cur ++ [c]) start2 true
    else if inw ∧ cur ≠ [] ∧ 1 < utf8Len cur then
      (cur, start) :: ewLoop cs (pos + 1) [] start false
    else if inw then
      ewLoop cs (pos + 1) [] start false
    else
      ewLoop cs (pos + 1) cur start inw

/-- `source_code::extract_words`. -/
def srcExtractWords (t : Str) : List (Str × Nat) := ewLoop t 0 [] 0 false

/-- The first `//` marker of a line: `line.find("&#47;&#47;")`. -/
def slashSlash : Str := ['/', '/']

/-- The comment branch of `parse_c_style` for one physical line: take the
remainder after the first `//` anywhere in the line and extract its words as
one comment span group. -/
def cStyleCommentSpans (line : Str) (lineNum : Nat) : List TextSpan :=
  match strFind line slashSlash with
  | some idx =>
    let comment := line.drop (idx + 2)
    (srcExtractWords comment).map (fun wo =>
      { text := wo.1, line := lineNum, column := idx + 2 + wo.2,
        original_text := comment })
  | none => []

/-- The quoted-string scanner of `parse_c_style`: consume characters after an
opening quote `q`, honouring backslash escapes, until the closing quote or
end of line; returns the collected interior and the remaining characters. -/
def scanStr : Str → Char → Str → Bool → Str × Str
  | [], _, acc, _ => (acc, [])
  | c :: cs, q, acc, escaped =>
    if escaped then scanStr cs q (acc ++ [c]) false
    else if c = bslash then scanStr cs q acc true
    else if c = q then (acc, cs)
    else scanStr cs q (acc ++ [c]) false

theorem scanStr_rest_length :
    ∀ (cs : Str) (q : Char) (acc : Str) (e : Bool),
      (scanStr cs q acc e).2.length ≤ cs.length := by
  intro cs
  induction cs with
  | nil => intro q acc e; simp [scanStr]
  | cons c cs ih =>
    intro q acc e
    simp only [scanStr]
    split
    · exact Nat.le_succ_of_le (ih q (acc ++ [c]) false)
    · split
      · exact Nat.le_succ_of_le (ih q acc true)
      · split
        · simp
        · exact Nat.le_succ_of_le (ih q (acc ++ [c]) false)

/-- The string-literal branch of `parse_c_style` for one line: scan for
quote characters, extract words from each literal's interior (string spans
carry the interior as context, and the opening quote's position + 1 as
column). -/
def stringSpansLoop (lineNum : Nat) : Str → Nat → List TextSpan
  | [], _ => []
  | c :: cs, pos =>
    if c = dquote ∨ c = squote then
      let scanned := scanStr cs c [] false
      ((srcExtractWords scanned.1).map (fun wo =>
        { text := wo.1, line := lineNum, column := pos + 1,
          original_text := scanned.1 }))
      ++ stringSpansLoop lineNum scanned.2 (pos + 1 + (cs.length - scanned.2.length))
    else stringSpansLoop lineNum cs (pos + 1)
termination_by s _ => s.length
decreasing_by
  · have h := scanStr_rest_length cs c [] false
    simp only [List.length_cons]
    omega
  · simp only [List.length_cons]
    omega

/-- `parse_c_style`, line by line: comment spans first, then string spans. -/
def parseCStyleLines : List Str → Nat → List TextSpan
  | [], _ => []
  | line :: rest, n =>
    cStyleCommentSpans line n ++ stringSpansLoop n line 0 ++ parseCStyleLines rest (n + 1)

/-- `source_code::parse_c_style` (multi-line block comments are out of scope
in the source as well). -/
def parse_c_style (content : Str) : List TextSpan :=
  parseCStyleLines (linesOf content) 1

/-- The scanning loop of `plaintext::extract_words`: runs of alphabetic,
apostrophe or hyphen characters, compound-split, keeping sub-words of byte
length > 1, each recorded at the run's start offset. -/
def ptLoop : Str → Nat → Str → Nat → List (Str × Nat)
  | [], _, cur, start =>
    if cur ≠ [] then
      ((split_compound_word cur).filter (fun sw => 1 < utf8Len sw)).map
        (fun sw => (sw, start))
    else []
  | c :: cs, pos, cur, start =>
    if isAlphabetic c ∨ c = squote ∨ c = '-' then
      let start2 := if cur = [] then pos else start
      ptLoop cs (pos + 1) (cur ++ [c]) start2
    else
      (if cur ≠ [] then
        ((split_compound_word cur).filter (fun sw => 1 < utf8Len sw)).map
          (fun sw => (sw, start))
      else []) ++ ptLoop cs (pos + 1) [] start

/-- `plaintext::extract_words`. -/
def ptExtractWords (t : Str) : List (Str × Nat) := ptLoop t 0 [] 0

/-- `plaintext::get_context`: up to 20 characters of context either side,
with ellipses marking truncation. -/
def get_context (line : Str) (offset wordLen : Nat) : Str :=
  let start := offset - 20
  let e := min (offset + wordLen + 20) line.length
  let context := (line.drop start).take (e - start)
  if 0 < start ∧ e < line.length then "...".toList ++ context ++ "...".toList
  else if 0 < start then "...".toList ++ context
  else if e < line.length then context ++ "...".toList
  else context

/-- One line of `plaintext::parse`. -/
def plaintextLineSpans (line : Str) (lineNum : Nat) : List TextSpan :=
  (ptExtractWords line).map (fun wo =>
    { text := wo.1, line := lineNum, column := wo.2 + 1,
      original_text := get_context line wo.2 wo.1.length })

def plaintextLinesSpans : List Str → Nat → List TextSpan
  | [], _ => []
  | l :: ls, n => plaintextLineSpans l n ++ plaintextLinesSpans ls (n + 1)

/-- `plaintext::parse`. -/
def plaintext_parse (content : Str) : List TextSpan :=
  plaintextLinesSpans (linesOf content) 1

/-! ### File-type dispatch (`parser::mod`) -/

inductive SourceLang where
  | rust | javascript | typescript | python | go | java | c | cpp | jsx | tsx | other
deriving DecidableEq, Repr

inductive FileType where
  | markdown
  | sourceCode (lang : SourceLang)
  | plainText
deriving DecidableEq, Repr

/-- `FileType::from_path` after extension extraction: the lowercased
extension (empty when the path has none) decides the format. -/
def fileTypeFromExt (ext : Str) : FileType :=
  let e := toLowerStr ext
  if e = "md".toList ∨ e = "mdx".toList ∨ e = "markdown".toList then .markdown
  else if e = "rs".toList then .sourceCode .rust
  else if e = "js".toList ∨ e = "mjs".toList ∨ e = "cjs".toList then .sourceCode .javascript
  else if e = "ts".toList ∨ e = "mts".toList ∨ e = "cts".toList then .sourceCode .typescript
  else if e = "jsx".toList then .sourceCode .jsx
  else if e = "tsx".toList then .sourceCode .tsx
  else if e = "py".toList ∨ e = "pyw".toList then .sourceCode .python
  else if e = "go".toList then .sourceCode .go
  else if e = "java".toList then .sourceCode .java
  else if e = "c".toList ∨ e = "h".toList then .sourceCode .c
  else if e = "cpp".toList ∨ e = "cc".toList ∨ e = "cxx".toList ∨ e = "hpp".toList ∨ e = "hh".toList then .sourceCode .cpp
  else .plainText

/-! ### Checker orchestrator (`checker::mod`) -/

structure SpellError where
  word : Str
  line : Nat
  column : Nat
  context : Str
  suggestions : List Str
deriving DecidableEq, Repr

structure CheckResult where
  error_count : Nat
  fixed_count : Nat
  errors : List SpellError
deriving DecidableEq, Repr

/-- The per-run state of `SpellChecker`: loaded dictionary, personal word
set, compiled ignore patterns (compiled regexes are external collaborators;
a pattern is modelled as an opaque predicate on the literal text). -/
structure SpellChecker where
  dictionary : Dict
  personal_words : List Str
  ignore_patterns : List (Str → Bool)

/-- `SpellChecker::should_ignore`: skip single characters (byte length ≤ 1),
all-numeric tokens, and ignore-pattern matches. -/
def should_ignore (ck : SpellChecker) (word : Str) : Bool :=
  if utf8Len word ≤ 1 then true
  else if word.all isNumeric then true
  else ck.ignore_patterns.any (fun p => p word)

/-- The span-filtering loop of `SpellChecker::check`: personal-dictionary
hit, ignore rule, or main-dictionary hit skip the span; otherwise the span is
a miss and suggestions are generated for it.  `none` propagates a suggestion
panic. -/
def checkSpans (ck : SpellChecker) (maxS : Nat) : List TextSpan → Option (List SpellError)
  | [] => some []
  | sp :: rest =>
    let word_lower := toLowerStr sp.text
    if ck.personal_words.contains word_lower then checkSpans ck maxS rest
    else if should_ignore ck sp.text then checkSpans ck maxS rest
    else if dictContains ck.dictionary word_lower then checkSpans ck maxS rest
    else
      match generate word_lower ck.dictionary maxS with
      | none => none
      | some suggs =>
        (checkSpans ck maxS rest).map (fun es =>
          { word := sp.text, line := sp.line, column := sp.column,
            context := sp.original_text, suggestions := suggs } :: es)

/-- `SpellChecker::check` of a plain-text file (file reading is modelled by
passing the content; result printing is an external collaborator). -/
def check (ck : SpellChecker) (maxS : Nat) (content : Str) : Option CheckResult :=
  (checkSpans ck maxS (plaintext_parse content)).map (fun errors =>
    { error_count := errors.length, fixed_count := 0, errors := errors })

/-- The replacement-collection loop of `SpellChecker::fix_auto`: one
`(misspelled text, top suggestion)` pair per miss that has a suggestion. -/
def collectReplacements (ck : SpellChecker) : List TextSpan → Option (List (Str × Str))
  | [] => some []
  | sp :: rest =>
    let word_lower := toLowerStr sp.text
    if ck.personal_words.contains word_lower then collectReplacements ck rest
    else if should_ignore ck sp.text then collectReplacements ck rest
    else if dictContains ck.dictionary word_lower then collectReplacements ck rest
    else
      match generate word_lower ck.dictionary 1 with
      | none => none
      | some suggs =>
        match suggs.head? with
        | none => collectReplacements ck rest
        | some top => (collectReplacements ck rest).map (fun rs => (sp.text, top) :: rs)

/-- The replacement-application loop of `fix_auto`: first-occurrence,
one-shot textual replace per collected pair, counting the applied ones. -/
def applyReplacements : Str → Nat → List (Str × Str) → Str × Nat
  | content, fixed, [] => (content, fixed)
  | content, fixed, r :: rest =>
    if containsSubstr content r.1 then
      applyReplacements (replaceFirst content r.1 r.2) (fixed + 1) rest
    else applyReplacements content fixed rest

/-- `SpellChecker::fix_auto` given the parsed spans of a file: collect
replacements, apply them, and write the file back only when `fixed_count`
is positive.  Returns the resulting on-disk content together with the
`CheckResult` (`error_count` 0, no errors reported). -/
def fixAutoCore (ck : SpellChecker) (spans : List TextSpan) (content : Str) :
    Option (Str × CheckResult) :=
  (collectReplacements ck spans).map (fun reps =>
    let applied := applyReplacements content 0 reps
    let disk := if 0 < applied.2 then applied.1 else content
    (disk, { error_count := 0, fixed_count := applied.2, errors := [] }))

/-- `fix_auto` of a plain-text file. -/
def fix_auto (ck : SpellChecker) (content : Str) : Option (Str × CheckResult) :=
  fixAutoCore ck (plaintext_parse content) content

/-! ### Dictionary lemmas -/

theorem dictContains_iff {d : Dict} {w : Str} : dictContains d w = true ↔ w ∈ d :=
  List.elem_iff

theorem dedupAdj_mem : ∀ (l : List Str) (x : Str), x ∈ dedupAdj l ↔ x ∈ l
  | [], x => by simp [dedupAdj]
  | [a], x => by simp [dedupAdj]
  | a :: b :: rest, x => by
    simp only [dedupAdj]
    split
    · rename_i hab
      rw [dedupAdj_mem (b :: rest) x]
      subst hab
      simp [List.mem_cons]
    · simp only [List.mem_cons, dedupAdj_mem (b :: rest) x]

theorem dedupAdj_pairwise_lt :
    ∀ l : List Str, l.Pairwise (fun a b => a ≤ b) →
      (dedupAdj l).Pairwise (fun a b => a < b)
  | [], _ => by simp [dedupAdj]
  | [a], _ => by simp [dedupAdj]
  | a :: b :: rest, h => by
    rcases h with _ | ⟨ha, hrest⟩
    simp only [dedupAdj]
    split
    · exact dedupAdj_pairwise_lt (b :: rest) hrest
    · rename_i hab
      refine List.Pairwise.cons ?_ (dedupAdj_pairwise_lt (b :: rest) hrest)
      intro z hz
      have hz' : z ∈ b :: rest := (dedupAdj_mem (b :: rest) z).mp hz
      have haltb : a < b := lt_of_le_of_ne (ha b (List.mem_cons_self b rest)) hab
      rcases List.mem_cons.mp hz' with rfl | hz''
      · exact haltb
      · rcases hrest with _ | ⟨hb, _⟩
        exact lt_of_lt_of_le haltb (hb z hz'')

theorem strLe_trans :
    ∀ a b c : Str, strLe a b = true → strLe b c = true → strLe a c = true := by
  intro a b c hab hbc
  simp only [strLe, decide_eq_true_eq] at hab hbc ⊢
  exact le_trans hab hbc

theorem strLe_total : ∀ a b : Str, (strLe a b || strLe b a) = true := by
  intro a b
  simp only [strLe, Bool.or_eq_true, decide_eq_true_eq]
  exact le_total a b

theorem build_from_words_pairwise_lt (L : List Str) :
    (build_from_words L).Pairwise (fun a b => a < b) := by
  have hs : (stableSort strLe L).Pairwise (fun a b : Str => a ≤ b) :=
    (stableSort_pairwise strLe strLe_trans strLe_total L).imp
      (by intro a b h; simpa [strLe, decide_eq_true_eq] using h)
  exact dedupAdj_pairwise_lt _ hs

theorem build_from_words_nodup (L : List Str) : (build_from_words L).Nodup :=
  (build_from_words_pairwise_lt L).imp ne_of_lt

theorem mem_build_from_words {L : List Str} {w : Str} :
    w ∈ build_from_words L ↔ w ∈ L := by
  rw [build_from_words, dedupAdj_mem, mem_stableSort]

theorem mem_wordsStartingWith {d : Dict} {p w : Str} :
    w ∈ wordsStartingWith d p ↔ w ∈ d ∧ p.isPrefixOf w = true :=
  List.mem_filter

/-! ### Claim theorems -/

/-- C1.  End-to-end pipeline correctness: for a file whose content is the
single line `This is a tst.` checked against a dictionary containing exactly
the words this/is/a/test, `check` returns exactly one `SpellError` for
`tst` at line 1 whose top suggestion is `test`, and `fix_auto` rewrites the
content to `This is a test.` with `fixed_count = 1`. -/
theorem c1_end_to_end_pipeline :
    check
      { dictionary :=
          build_from_words ["this".toList, "is".toList, "a".toList, "test".toList],
        personal_words := [], ignore_patterns := [] }
      5 "This is a tst.".toList =
      some { error_count := 1, fixed_count := 0,
             errors := [{ word := "tst".toList, line := 1, column := 11,
                          context := "This is a tst.".toList,
                          suggestions := ["test".toList, "is".toList] }] } ∧
    fix_auto
      { dictionary :=
          build_from_words ["this".toList, "is".toList, "a".toList, "test".toList],
        personal_words := [], ignore_patterns := [] }
      "This is a tst.".toList =
      some ("This is a test.".toList,
            { error_count := 0, fixed_count := 1, errors := [] }) := by
  constructor <;> rfl

/-- C2.  The spec promises that suggestion generation never fails, but the
code slices `&word[..3]` at a byte index: for the lowercased word `éé`
(4 UTF-8 bytes, no character boundary at byte 3) stage 1 panics, modelled as
`generate` returning `none` — here evaluated at the failing input with an
empty dictionary and bound 5. -/
theorem c2_generate_panics_on_multibyte :
    generate "éé".toList (build_from_words []) 5 = none := by rfl

/-- C7.  Dictionary build/load round-trip: membership in the dictionary
built (and re-loaded) from a word list `L` holds exactly for the words of
`L` (equivalently, of deduplicated `L`). -/
theorem c7_build_load_roundtrip :
    ∀ (L : List Str) (w : Str), dictContains (build_from_words L) w = true ↔ w ∈ L := by
  intro L w
  rw [dictContains_iff, mem_build_from_words]

/-- C8.  Membership and prefix consistency: every word `w` of a dictionary
built from `L` satisfies `contains`, appears in `words_with_prefix` for each
of its prefixes `w.take k`, and the prefix query returns its words in
(strictly) sorted order. -/
theorem c8_membership_prefix_query :
    ∀ (L : List Str) (w : Str), w ∈ build_from_words L →
      dictContains (build_from_words L) w = true ∧
      ∀ k, k ≤ w.length →
        w ∈ wordsStartingWith (build_from_words L) (w.take k) ∧
        (wordsStartingWith (build_from_words L) (w.take k)).Pairwise (fun a b => a < b) := by
  intro L w hw
  refine ⟨dictContains_iff.mpr hw, ?_⟩
  intro k _
  constructor
  · have htp := List.take_prefix k w
    exact mem_wordsStartingWith.mpr ⟨hw, List.isPrefixOf_iff_prefix.mpr htp⟩
  · exact (build_from_words_pairwise_lt L).filter _

/-- C8 witness: instantiation at the dictionary built from this/is/a/test,
the word `test` and the prefix length 2. -/
theorem c8_membership_prefix_query_witness :
    dictContains
        (build_from_words ["this".toList, "is".toList, "a".toList, "test".toList])
        "test".toList = true ∧
      "test".toList ∈
        wordsStartingWith
          (build_from_words ["this".toList, "is".toList, "a".toList, "test".toList])
          ("test".toList.take 2) ∧
      (wordsStartingWith
          (build_from_words ["this".toList, "is".toList, "a".toList, "test".toList])
          ("test".toList.take 2)).Pairwise (fun a b => a < b) := by
  have h := c8_membership_prefix_query
    ["this".toList, "is".toList, "a".toList, "test".toList] "test".toList (by decide)
  exact ⟨h.1, (h.2 2 (by decide)).1, (h.2 2 (by decide)).2⟩

/-- C5 counterexample: the extension `mts` is not among those listed by the
claim, yet `FileType::from_path` maps it to the source-code family, not to
plain text. -/
theorem c5_counterexample_mts :
    fileTypeFromExt "mts".toList = FileType.sourceCode SourceLang.typescript ∧
    fileTypeFromExt "mts".toList ≠ FileType.plainText := by
  constructor <;> decide

/-- C5 (amended).  Format dispatch by (lowercased) extension:
md/mdx/markdown → Markdown; rs, go, java, c, h, cpp, cc, cxx, hpp, hh, js,
mjs, cjs, ts, mts, cts, jsx, tsx → non-Python source-code family; py/pyw →
Python-style source; an extension outside this list (including none, the
empty string) → plain text. -/
theorem c5_format_dispatch :
    (∀ e ∈ ["md".toList, "mdx".toList, "markdown".toList],
      fileTypeFromExt e = .markdown) ∧
    (∀ e ∈ ["rs".toList, "go".toList, "java".toList, "c".toList, "h".toList,
        "cpp".toList, "cc".toList, "cxx".toList, "hpp".toList, "hh".toList,
        "js".toList, "mjs".toList, "cjs".toList, "ts".toList, "mts".toList,
        "cts".toList, "jsx".toList, "tsx".toList],
      ∃ l, fileTypeFromExt e = .sourceCode l ∧ l ≠ SourceLang.python) ∧
    (∀ e ∈ ["py".toList, "pyw".toList], fileTypeFromExt e = .sourceCode .python) ∧
    (∀ ext : Str,
      toLowerStr ext ∉ ["md".toList, "mdx".toList, "markdown".toList,
          "rs".toList, "js".toList, "mjs".toList, "cjs".toList, "ts".toList,
          "mts".toList, "cts".toList, "jsx".toList, "tsx".toList, "py".toList,
          "pyw".toList, "go".toList, "java".toList, "c".toList, "h".toList,
          "cpp".toList, "cc".toList, "cxx".toList, "hpp".toList, "hh".toList] →
      fileTypeFromExt ext = .plainText) := by
  refine ⟨?_, ?_, ?_, ?_⟩
  · intro e he; fin_cases he <;> rfl
  · intro e he
    fin_cases he <;> exact ⟨_, rfl, by decide⟩
  · intro e he; fin_cases he <;> rfl
  · intro ext h
    simp only [List.mem_cons, List.not_mem_nil, or_false, not_or] at h
    obtain ⟨h1, h2, h3, h4, h5, h6, h7, h8, h9, h10, h11, h12,
      h13, h14, h15, h16, h17, h18, h19, h20, h21, h22, h23⟩ := h
    unfold fileTypeFromExt
    rw [if_neg (by exact not_or.mpr ⟨h1, not_or.mpr ⟨h2, h3⟩⟩)]
    rw [if_neg h4]
    rw [if_neg (by exact not_or.mpr ⟨h5, not_or.mpr ⟨h6, h7⟩⟩)]
    rw [if_neg (by exact not_or.mpr ⟨h8, not_or.mpr ⟨h9, h10⟩⟩)]
    rw [if_neg h11, if_neg h12]
    rw [if_neg (by exact not_or.mpr ⟨h13, h14⟩)]
    rw [if_neg h15, if_neg h16]
    rw [if_neg (by exact not_or.mpr ⟨h17, h18⟩)]
    rw [if_neg (by exact not_or.mpr ⟨h19, not_or.mpr ⟨h20, not_or.mpr ⟨h21, not_or.mpr ⟨h22, h23⟩⟩⟩⟩)]

/-- C5 witness: the unlisted extension `txt` (and the empty extension) map
to plain text; `md` maps to Markdown. -/
theorem c5_format_dispatch_witness :
    fileTypeFromExt "txt".toList = FileType.plainText ∧
    fileTypeFromExt "".toList = FileType.plainText ∧
    fileTypeFromExt "md".toList = FileType.markdown := by
  refine ⟨c5_format_dispatch.2.2.2 "txt".toList (by decide),
    c5_format_dispatch.2.2.2 "".toList (by decide),
    c5_format_dispatch.1 "md".toList (by simp)⟩

/-- C6 counterexample: the claim describes the camelCase boundary as an
uppercase letter following a lowercase letter, so `AB` (uppercase following
uppercase) would contain no boundary and be returned unchanged; the code
splits at every uppercase letter with a nonempty current sub-word, giving
`["A", "b"]`. -/
theorem c6_counterexample_upper_after_upper :
    split_compound_word "AB".toList = ["A".toList, "b".toList] ∧
    split_compound_word "AB".toList ≠ ["AB".toList] := by
  constructor <;> decide

/-- C6 (amended).  `split_compound_word` splits on `_`/`-` boundaries and at
every uppercase letter that follows a nonempty current sub-word (not only
after a lowercase letter), the uppercase letter starting a new, lowercased
sub-word; the three concrete examples hold, and any word containing no
`_`/`-` and no uppercase letter after its first character is returned
unchanged as a single-element list. -/
theorem c6_split_compound :
    split_compound_word "camelCase".toList = ["camel".toList, "case".toList] ∧
    split_compound_word "snake_case".toList = ["snake".toList, "case".toList] ∧
    split_compound_word "kebab-case".toList = ["kebab".toList, "case".toList] ∧
    ∀ w : Str, (∀ c ∈ w, c ≠ '_' ∧ c ≠ '-') → (∀ c ∈ w.drop 1, ¬ c.isUpper = true) →
      split_compound_word w = [w] := by
  refine ⟨by decide, by decide, by decide, ?_⟩
  have key : ∀ (cs : Str) (res : List Str) (cur : Str), cur ≠ [] →
      (∀ c ∈ cs, c ≠ '_' ∧ c ≠ '-') → (∀ c ∈ cs, ¬ c.isUpper = true) →
      scwLoop cs res cur = res ++ [cur ++ cs] := by
    intro cs
    induction cs with
    | nil =>
      intro res cur hcur _ _
      simp [scwLoop, hcur]
    | cons c cs ih =>
      intro res cur hcur hsep hup
      have hc := hsep c (List.mem_cons_self c cs)
      have hcu := hup c (List.mem_cons_self c cs)
      simp only [scwLoop]
      rw [if_neg (by tauto), if_neg (by tauto)]
      rw [ih res (cur ++ [c]) (by simp)
        (fun x hx => hsep x (List.mem_cons_of_mem c hx))
        (fun x hx => hup x (List.mem_cons_of_mem c hx))]
      simp

  intro w hsep hup
  rcases w with _ | ⟨c, cs⟩
  · decide
  · have hc := hsep c (List.mem_cons_self c cs)
    have hsep' : ∀ x ∈ cs, x ≠ '_' ∧ x ≠ '-' :=
      fun x hx => hsep x (List.mem_cons_of_mem c hx)
    have hup' : ∀ x ∈ cs, ¬ x.isUpper = true := by
      intro x hx
      exact hup x (by simpa using hx)
    have hloop : scwLoop (c :: cs) [] [] = [c :: cs] := by
      show (if c = '_' ∨ c = '-' then
          scwLoop cs (if ([] : Str) ≠ [] then [] ++ [([] : Str)] else []) []
        else if c.isUpper = true ∧ ([] : Str) ≠ [] then
          scwLoop cs ([] ++ [([] : Str)]) [c.toLower]
        else scwLoop cs [] ([] ++ [c])) = [c :: cs]
      rw [if_neg (by tauto), if_neg (by simp)]
      rw [show ([] : Str) ++ [c] = [c] from rfl]
      rw [key cs [] [c] (by simp) hsep' hup']
      simp
    simp [split_compound_word, hloop]

/-- C6 witness: a word with no underscore/hyphen and no uppercase letter
after its first character is returned unchanged. -/
theorem c6_split_compound_witness :
    split_compound_word "Plain".toList = ["Plain".toList] :=
  c6_split_compound.2.2.2 "Plain".toList (by decide) (by decide)

/-! ### C10: fix_auto frame lemmas -/

theorem applyReplacements_fixed_le :
    ∀ (reps : List (Str × Str)) (content : Str) (f : Nat),
      f ≤ (applyReplacements content f reps).2 := by
  intro reps
  induction reps with
  | nil => intro content f; simp [applyReplacements]
  | cons r rest ih =>
    intro content f
    simp only [applyReplacements]
    split
    · exact le_trans (Nat.le_succ f) (ih _ (f + 1))
    · exact ih content f

theorem applyReplacements_zero :
    ∀ (reps : List (Str × Str)) (content c' : Str),
      applyReplacements content 0 reps = (c', 0) → c' = content := by
  intro reps
  induction reps with
  | nil =>
    intro content c' h
    simp only [applyReplacements] at h
    exact (congrArg Prod.fst h).symm
  | cons r rest ih =>
    intro content c' h
    simp only [applyReplacements] at h
    split at h
    · exfalso
      have h1 := applyReplacements_fixed_le rest (replaceFirst content r.1 r.2) 1
      rw [h] at h1
      omega
    · exact ih content c' h

/-- C10.  `fix_auto` always returns a `CheckResult` with `error_count = 0`
and an empty error list; the file is written back only when `fixed_count`
is positive, and when `fixed_count = 0` the on-disk content is unchanged
(indeed the computed new content itself equals the old content whenever no
replacement was applied). -/
theorem c10_fix_auto_frame :
    ∀ (ck : SpellChecker) (spans : List TextSpan) (content disk : Str)
      (r : CheckResult),
      fixAutoCore ck spans content = some (disk, r) →
      r.error_count = 0 ∧ r.errors = [] ∧
      (r.fixed_count = 0 → disk = content) ∧
      (∀ (reps : List (Str × Str)) (c' : Str),
        applyReplacements content 0 reps = (c', 0) → c' = content) := by
  intro ck spans content disk r h
  simp only [fixAutoCore] at h
  cases hc : collectReplacements ck spans with
  | none => rw [hc] at h; cases h
  | some reps =>
    rw [hc] at h
    simp only [Option.map_some'] at h
    injection h with h'
    have hdisk := congrArg Prod.fst h'
    have hr := congrArg Prod.snd h'
    simp only at hdisk hr
    subst hr
    refine ⟨rfl, rfl, ?_, fun reps' c' hap => applyReplacements_zero reps' content c' hap⟩
    intro hf
    simp only at hf
    rw [← hdisk, if_neg]
    rw [hf]
    exact lt_irrefl 0

/-- C10 witness: a file with no spans is left untouched with
`fixed_count = 0`. -/
theorem c10_fix_auto_frame_witness :
    (CheckResult.mk 0 0 []).error_count = 0 ∧
    (CheckResult.mk 0 0 []).errors = [] ∧
    ((CheckResult.mk 0 0 []).fixed_count = 0 → "ab".toList = "ab".toList) ∧
    (∀ (reps : List (Str × Str)) (c' : Str),
      applyReplacements "ab".toList 0 reps = (c', 0) → c' = "ab".toList) :=
  c10_fix_auto_frame
    { dictionary := [], personal_words := [], ignore_patterns := [] }
    [] "ab".toList "ab".toList (CheckResult.mk 0 0 []) (by rfl)

/-! ### C4: C-style comment extraction -/

theorem slashSlash_isPrefixOf_cons_cons (x y : Char) (u v : Str) :
    slashSlash.isPrefixOf (x :: y :: u) = slashSlash.isPrefixOf (x :: y :: v) := by
  simp [slashSlash, List.isPrefixOf]

theorem containsSubstr_cons (c : Char) (s pat : Str) :
    containsSubstr (c :: s) pat = (pat.isPrefixOf (c :: s) || containsSubstr s pat) := by
  simp only [containsSubstr, strFind]
  split
  · rename_i hpre
    simp [hpre]
  · rename_i hpre
    rw [Bool.not_eq_true] at hpre
    cases hfind : strFind s pat <;> simp [hpre, hfind]

/-- The first `//` of `a ++ "&#47;&#47;" ++ b` is at index `a.length` provided no
`//` occurs earlier (also not straddling into the marker). -/
theorem strFind_first_marker :
    ∀ (a b : Str), containsSubstr (a ++ ['/']) slashSlash = false →
      strFind (a ++ slashSlash ++ b) slashSlash = some a.length := by
  intro a
  induction a with
  | nil =>
    intro b _
    have hpp : slashSlash <+: ([] : Str) ++ slashSlash ++ b := by simp [slashSlash]
    have hpf := List.isPrefixOf_iff_prefix.mpr hpp
    rw [strFind.eq_def]
    dsimp only
    rw [if_pos hpf]
    rfl
  | cons c a ih =>
    intro b h
    have hsplit : slashSlash.isPrefixOf (c :: (a ++ ['/'])) = false ∧
        containsSubstr (a ++ ['/']) slashSlash = false := by
      have hcc := containsSubstr_cons c (a ++ ['/']) slashSlash
      rw [show (c :: a) ++ ['/'] = c :: (a ++ ['/']) from rfl] at h
      rw [h] at hcc
      exact Bool.or_eq_false_iff.mp hcc.symm
    have hpre : slashSlash.isPrefixOf (c :: (a ++ slashSlash ++ b)) = false := by
      cases a with
      | nil =>
        rw [show ([] : Str) ++ slashSlash ++ b = '/' :: ('/' :: b) from rfl]
        rw [slashSlash_isPrefixOf_cons_cons c '/' ('/' :: b) []]
        exact hsplit.1
      | cons a0 a' =>
        rw [show (a0 :: a') ++ slashSlash ++ b = a0 :: (a' ++ slashSlash ++ b) from rfl]
        rw [slashSlash_isPrefixOf_cons_cons c a0 (a' ++ slashSlash ++ b) (a' ++ ['/'])]
        exact hsplit.1
    rw [show (c :: a) ++ slashSlash ++ b = c :: (a ++ slashSlash ++ b) from rfl]
    rw [strFind.eq_def]
    dsimp only
    rw [if_neg (by rw [hpre]; exact Bool.false_ne_true)]
    show (strFind (a ++ slashSlash ++ b) slashSlash).map (· + 1) = some (c :: a).length
    rw [ih b hsplit.2]
    rfl

/-- C4 counterexample: in the single C-style line `x = "up // vp"` the first
`//` lies inside the double-quoted string literal (the quote opens at index 4
and closes at the end), yet the tokenizer extracts a comment span group from
the remainder after it: the span `vp` with the post-marker remainder
` vp"` as its context — so a `//` inside a quoted string does start a
comment span group, contradicting the claim. -/
theorem c4_counterexample_marker_inside_string :
    strFind "x = \"up // vp\"".toList slashSlash = some 8 ∧
    cStyleCommentSpans "x = \"up // vp\"".toList 1 =
      [{ text := "vp".toList, line := 1, column := 11,
         original_text := " vp\"".toList }] ∧
    ({ text := "vp".toList, line := 1, column := 11,
       original_text := " vp\"".toList } : TextSpan) ∈
      parse_c_style "x = \"up // vp\"".toList := by
  refine ⟨by rfl, by rfl, by decide⟩

/-- C4 (amended).  For every physical line the tokenizer extracts the
comment span group from the remainder after the first `//` marker anywhere
in the line, regardless of string literals: whenever the line is
`a ++ "&#47;&#47;" ++ b` with no earlier (or straddling) marker occurrence — no
condition on quotes in `a` — the comment span group is exactly the words of
`b`, with `b` as the group's context. -/
theorem c4_comment_after_first_marker :
    ∀ (a b : Str) (n : Nat), containsSubstr (a ++ ['/']) slashSlash = false →
      cStyleCommentSpans (a ++ slashSlash ++ b) n =
        (srcExtractWords b).map (fun wo =>
          { text := wo.1, line := n, column := a.length + 2 + wo.2,
            original_text := b }) := by
  intro a b n h
  have hdrop : (a ++ slashSlash ++ b).drop (a.length + 2) = b := by
    rw [show a ++ slashSlash ++ b = (a ++ slashSlash) ++ b from by
      rw [List.append_assoc]]
    rw [show a.length + 2 = (a ++ slashSlash).length from by
      simp [slashSlash]]
    exact List.drop_left _ _
  unfold cStyleCommentSpans
  rw [strFind_first_marker a b h]
  dsimp only
  rw [hdrop]

/-- C4 witness for the amended statement: the prefix `x = "up ` contains an
unmatched quote, so the marker sits inside a string literal; the comment
group is still extracted from the remainder ` vp"`. -/
theorem c4_comment_after_first_marker_witness :
    cStyleCommentSpans ("x = \"up ".toList ++ slashSlash ++ " vp\"".toList) 1 =
      [{ text := "vp".toList, line := 1, column := 11,
         original_text := " vp\"".toList }] := by
  rw [c4_comment_after_first_marker "x = \"up ".toList " vp\"".toList 1 (by rfl)]
  rfl

/-! ### Stage-4 candidate lemmas -/

theorem stage4Filter_eq_some {word : Str} {sugg : List Str} {x : Str}
    {p : Nat × Str} (h : stage4Filter word sugg x = some p) :
    p = (edit_distance word x, x) ∧ edit_distance word x ≤ 2 ∧ x ∉ sugg := by
  simp only [stage4Filter] at h
  split at h
  · rename_i hc
    injection h with h'
    have hc' := hc
    simp only [Bool.and_eq_true] at hc'
    refine ⟨h'.symm, by simpa using hc'.1, ?_⟩
    intro hmem
    have hfalse : sugg.contains x = false := by simpa using hc'.2
    have htrue : sugg.contains x = true := dictContains_iff.mpr hmem
    rw [hfalse] at htrue
    exact Bool.false_ne_true htrue
  · cases h

theorem map_snd_stage4 (word : Str) (sugg : List Str) :
    ∀ pool : List Str,
      ((pool.filterMap (stage4Filter word sugg)).map Prod.snd)
        = pool.filter
            (fun x => decide (edit_distance word x ≤ 2) && !sugg.contains x) := by
  intro pool
  induction pool with
  | nil => rfl
  | cons x xs ih =>
    by_cases hc : (decide (edit_distance word x ≤ 2) && !sugg.contains x) = true
    · have hsome : stage4Filter word sugg x = some (edit_distance word x, x) := by
        simp only [stage4Filter]; rw [if_pos hc]
      rw [List.filterMap_cons_some hsome, List.map_cons, ih,
        List.filter_cons, if_pos hc]
    · have hnone : stage4Filter word sugg x = none := by
        simp only [stage4Filter]; rw [if_neg hc]
      rw [List.filterMap_cons_none hnone, ih, List.filter_cons, if_neg hc]

theorem stage4Pool_subset {word : Str} {d : Dict} {x : Str}
    (hx : x ∈ stage4Pool word d) : x ∈ d := by
  simp only [stage4Pool] at hx
  exact (List.mem_filter.mp (List.mem_of_mem_take hx)).1

theorem stage4Pool_nodup (word : Str) {d : Dict} (hd : d.Nodup) :
    (stage4Pool word d).Nodup :=
  (List.take_sublist _ _).nodup (hd.filter _)

theorem stage4Candidates_mem {word : Str} {d : Dict} {sugg : List Str}
    {p : Nat × Str} (hp : p ∈ stage4Candidates word d sugg) :
    p.1 = edit_distance word p.2 ∧ p.2 ∈ d ∧ p.2 ∉ sugg := by
  simp only [stage4Candidates] at hp
  rw [mem_stableSort] at hp
  obtain ⟨x, hx, hfx⟩ := List.mem_filterMap.mp hp
  obtain ⟨rfl, _, hns⟩ := stage4Filter_eq_some hfx
  exact ⟨rfl, stage4Pool_subset hx, hns⟩

theorem stage4Candidates_snd_nodup (word : Str) {d : Dict} (sugg : List Str)
    (hd : d.Nodup) : ((stage4Candidates word d sugg).map Prod.snd).Nodup := by
  have hperm :
      List.Perm ((stage4Candidates word d sugg).map Prod.snd)
        (((stage4Pool word d).filterMap (stage4Filter word sugg)).map Prod.snd) :=
    (stableSort_perm _ _).map _
  apply hperm.symm.nodup
  rw [map_snd_stage4]
  exact (List.filter_sublist _).nodup (stage4Pool_nodup word hd)

theorem stage4Candidates_pairwise (word : Str) (d : Dict) (sugg : List Str) :
    (stage4Candidates word d sugg).Pairwise (fun p q => p.1 ≤ q.1) := by
  have h := stableSort_pairwise (fun a b : Nat × Str => decide (a.1 ≤ b.1))
    (fun a b c h1 h2 => by
      simp only [decide_eq_true_eq] at h1 h2 ⊢; omega)
    (fun a b => by
      simp only [Bool.or_eq_true, decide_eq_true_eq]; omega)
    ((stage4Pool word d).filterMap (stage4Filter word sugg))
  exact h.imp (by intro a b hh; simpa using hh)

/-- C3.  The suggestion list is always bounded by `max_suggestions`
(whenever `generate` returns at all, its result has length ≤ the bound), and
the candidates contributed by the bounded full-dictionary scan stage (the
only stage reached for words of byte length ≤ 3 with the list still short)
are ordered ascending by edit distance to the misspelled word. -/
theorem c3_bound_and_stage4_order :
    (∀ (w : Str) (d : Dict) (n : Nat) (r : List Str),
      generate w d n = some r → r.length ≤ n) ∧
    (∀ (w : Str) (d : Dict) (s : List Str),
      ((stage4Candidates w d s).map Prod.snd).Pairwise
        (fun a b => edit_distance w a ≤ edit_distance w b)) := by
  constructor
  · intro w d n r h
    simp only [generate] at h
    repeat' split at h
    all_goals try (cases h)
    all_goals rw [List.length_take]
    all_goals exact inf_le_left
  · intro w d s
    rw [List.pairwise_map]
    refine List.Pairwise.imp_of_mem ?_ (stage4Candidates_pairwise w d s)
    intro p q hp hq hle
    rw [(stage4Candidates_mem hp).1, (stage4Candidates_mem hq).1] at hle
    exact hle

/-- C3 witness: `generate` with bound 5 on the word `tst` over the
this/is/a/test dictionary returns a two-element list, within the bound. -/
theorem c3_bound_witness :
    (["test".toList, "is".toList] : List Str).length ≤ 5 :=
  c3_bound_and_stage4_order.1 "tst".toList
    (build_from_words ["this".toList, "is".toList, "a".toList, "test".toList]) 5
    ["test".toList, "is".toList] (by rfl)

/-! ### C9: suggestion-list invariants -/

theorem contains_false_not_mem {l : List Str} {x : Str}
    (h : l.contains x = false) : x ∉ l := by
  intro hm
  have ht : l.contains x = true := dictContains_iff.mpr hm
  rw [h] at ht
  exact Bool.false_ne_true ht

theorem pushTransforms_inv (d : Dict) (maxS : Nat) :
    ∀ (ts acc : List Str), (∀ x ∈ acc, x ∈ d) → acc.Nodup →
      (∀ x ∈ pushTransforms d maxS acc ts, x ∈ d) ∧
        (pushTransforms d maxS acc ts).Nodup := by
  intro ts
  induction ts with
  | nil =>
    intro acc h1 h2
    exact ⟨by simpa [pushTransforms] using h1, by simpa [pushTransforms] using h2⟩
  | cons t ts ih =>
    intro acc h1 h2
    simp only [pushTransforms]
    split
    · rename_i hguard
      have hg := hguard
      simp only [Bool.and_eq_true] at hg
      have ht : t ∈ d := dictContains_iff.mp hg.1
      have htn : t ∉ acc := contains_false_not_mem (by simpa using hg.2)
      have h1' : ∀ x ∈ acc ++ [t], x ∈ d := by
        intro x hx
        rcases List.mem_append.mp hx with hx | hx
        · exact h1 x hx
        · rw [List.mem_singleton.mp hx]; exact ht
      have h2' : (acc ++ [t]).Nodup := by
        rw [List.nodup_append]
        refine ⟨h2, List.nodup_singleton t, ?_⟩
        intro a ha hb
        rw [List.mem_singleton.mp hb] at ha
        exact htn ha
      split
      · exact ⟨fun x hx => h1' x (List.mem_of_mem_take hx),
          (List.take_sublist _ _).nodup h2'⟩
      · exact ih (acc ++ [t]) h1' h2'
    · exact ih acc h1 h2

theorem pushPrefixCandidates_inv (word : Str) (maxS : Nat) (d : Dict) :
    ∀ (cs acc : List Str), (∀ x ∈ cs, x ∈ d) → (∀ x ∈ acc, x ∈ d) → acc.Nodup →
      (∀ x ∈ pushPrefixCandidates word maxS acc cs, x ∈ d) ∧
        (pushPrefixCandidates word maxS acc cs).Nodup := by
  intro cs
  induction cs with
  | nil =>
    intro acc _ h1 h2
    exact ⟨by simpa [pushPrefixCandidates] using h1,
      by simpa [pushPrefixCandidates] using h2⟩
  | cons c cs ih =>
    intro acc hcs h1 h2
    simp only [pushPrefixCandidates]
    split
    · rename_i hguard
      have hg := hguard
      simp only [Bool.and_eq_true] at hg
      have hc : c ∈ d := hcs c (List.mem_cons_self c cs)
      have hcn : c ∉ acc := contains_false_not_mem (by simpa using hg.2)
      have h1' : ∀ x ∈ acc ++ [c], x ∈ d := by
        intro x hx
        rcases List.mem_append.mp hx with hx | hx
        · exact h1 x hx
        · rw [List.mem_singleton.mp hx]; exact hc
      have h2' : (acc ++ [c]).Nodup := by
        rw [List.nodup_append]
        refine ⟨h2, List.nodup_singleton c, ?_⟩
        intro a ha hb
        rw [List.mem_singleton.mp hb] at ha
        exact hcn ha
      split
      · exact ⟨fun x hx => h1' x (List.mem_of_mem_take hx),
          (List.take_sublist _ _).nodup h2'⟩
      · exact ih (acc ++ [c]) (fun x hx => hcs x (List.mem_cons_of_mem c hx)) h1' h2'
    · exact ih acc (fun x hx => hcs x (List.mem_cons_of_mem c hx)) h1 h2

theorem pushCandidates_inv (maxS : Nat) :
    ∀ (cs : List (Nat × Str)) (acc : List Str), acc.Nodup →
      (∀ p ∈ cs, p.2 ∉ acc) → (cs.map Prod.snd).Nodup →
      (∀ x ∈ pushCandidates maxS acc cs, x ∈ acc ∨ x ∈ cs.map Prod.snd) ∧
        (pushCandidates maxS acc cs).Nodup := by
  intro cs
  induction cs with
  | nil =>
    intro acc h1 _ _
    exact ⟨fun x hx => Or.inl (by simpa [pushCandidates] using hx),
      by simpa [pushCandidates] using h1⟩
  | cons c cs ih =>
    intro acc h1 h2 h3
    simp only [pushCandidates]
    have hcn : c.2 ∉ acc := h2 c (List.mem_cons_self c cs)
    have hacc2 : (acc ++ [c.2]).Nodup := by
      rw [List.nodup_append]
      refine ⟨h1, List.nodup_singleton _, ?_⟩
      intro a ha hb
      rw [List.mem_singleton.mp hb] at ha
      exact hcn ha
    rw [List.map_cons] at h3
    have hhd : c.2 ∉ cs.map Prod.snd := (List.nodup_cons.mp h3).1
    have htl : (cs.map Prod.snd).Nodup := (List.nodup_cons.mp h3).2
    split
    · refine ⟨fun x hx => ?_, hacc2⟩
      rcases List.mem_append.mp hx with hx | hx
      · exact Or.inl hx
      · right
        rw [List.map_cons, List.mem_singleton.mp hx]
        exact List.mem_cons_self _ _
    · have ih' := ih (acc ++ [c.2]) hacc2
        (fun p hp hmem => by
          rcases List.mem_append.mp hmem with hx | hx
          · exact h2 p (List.mem_cons_of_mem c hp) hx
          · have hpc : p.2 = c.2 := List.mem_singleton.mp hx
            apply hhd
            rw [← hpc]
            exact List.mem_map_of_mem Prod.snd hp)
        htl
      refine ⟨fun x hx => ?_, ih'.2⟩
      rcases ih'.1 x hx with hx' | hx'
      · rcases List.mem_append.mp hx' with hh | hh
        · exact Or.inl hh
        · right
          rw [List.map_cons, List.mem_singleton.mp hh]
          exact List.mem_cons_self _ _
      · right
        rw [List.map_cons]
        exact List.mem_cons_of_mem _ hx'

theorem stage1_inv {w : Str} {d : Dict} {n : Nat} (hd : d.Nodup) (s1 : List Str)
    (h : (if 3 ≤ utf8Len w then
        match byteSlice w 3 with
        | none => none
        | some p =>
          some (List.filter (fun x => decide (edit_distance w x ≤ 2))
            (List.take n (stableSort
              (fun a b => decide (edit_distance w a ≤ edit_distance w b))
              (wordsStartingWith d p))))
      else some []) = some s1) :
    (∀ x ∈ s1, x ∈ d) ∧ s1.Nodup := by
  split at h
  · cases hbs : byteSlice w 3 with
    | none => rw [hbs] at h; cases h
    | some p =>
      rw [hbs] at h
      injection h with h'
      subst h'
      constructor
      · intro x hx
        have hx1 := (List.mem_filter.mp hx).1
        have hx2 := List.mem_of_mem_take hx1
        exact (mem_wordsStartingWith.mp ((mem_stableSort _).mp hx2)).1
      · refine ((List.filter_sublist _).trans (List.take_sublist _ _)).nodup ?_
        exact stableSort_nodup _ (hd.filter _)
  · injection h with h'
    subst h'
    exact ⟨by simp, List.nodup_nil⟩

theorem stage3_inv {w : Str} {d : Dict} {n : Nat} (s2 : List Str)
    (h2mem : ∀ x ∈ s2, x ∈ d) (h2nd : s2.Nodup) (s3 : List Str)
    (h : (if s2.length < n ∧ 2 ≤ utf8Len w then
        match byteSlice w 2 with
        | none => none
        | some p =>
          some (pushPrefixCandidates w n s2 (stableSort
            (fun a b => decide (edit_distance w a ≤ edit_distance w b))
            (wordsStartingWith d p)))
      else some s2) = some s3) :
    (∀ x ∈ s3, x ∈ d) ∧ s3.Nodup := by
  split at h
  · cases hbs : byteSlice w 2 with
    | none => rw [hbs] at h; cases h
    | some p =>
      rw [hbs] at h
      injection h with h'
      subst h'
      exact pushPrefixCandidates_inv w n d _ s2
        (fun x hx => (mem_wordsStartingWith.mp ((mem_stableSort _).mp hx)).1)
        h2mem h2nd
  · injection h with h'
    subst h'
    exact ⟨h2mem, h2nd⟩

/-- C9.  Every candidate returned by `generate` is a dictionary word
(stage 1 and 3 draw from the prefix query, stage 2 only pushes
dictionary-membership-checked transformations, stage 4 draws from the full
enumeration), and the returned list contains no duplicates (stages 2–4 check
the accumulated list before pushing; within each stage the candidate pools
are duplicate-free because the dictionary enumeration is). -/
theorem c9_suggestions_in_dict_nodup :
    ∀ (w : Str) (d : Dict) (n : Nat) (r : List Str), d.Nodup →
      generate w d n = some r →
      (∀ x ∈ r, dictContains d x = true) ∧ r.Nodup := by
  intro w d n r hd h
  suffices hs : (∀ x ∈ r, x ∈ d) ∧ r.Nodup by
    exact ⟨fun x hx => dictContains_iff.mpr (hs.1 x hx), hs.2⟩
  simp only [generate] at h
  split at h
  · cases h
  · rename_i s1 heq1
    have hs1 := stage1_inv hd s1 heq1
    split at h
    · injection h with h'
      subst h'
      exact ⟨fun x hx => hs1.1 x (List.mem_of_mem_take hx),
        (List.take_sublist _ _).nodup hs1.2⟩
    · have hs2 := pushTransforms_inv d n (generate_transformations w) s1 hs1.1 hs1.2
      split at h
      · injection h with h'
        subst h'
        exact ⟨fun x hx => hs2.1 x (List.mem_of_mem_take hx),
          (List.take_sublist _ _).nodup hs2.2⟩
      · split at h
        · cases h
        · rename_i s3 heq3
          have hs3 := stage3_inv _ hs2.1 hs2.2 s3 heq3
          split at h
          · injection h with h'
            subst h'
            exact ⟨fun x hx => hs3.1 x (List.mem_of_mem_take hx),
              (List.take_sublist _ _).nodup hs3.2⟩
          · injection h with h'
            subst h'
            split
            · have hpc := pushCandidates_inv n (stage4Candidates w d s3) s3 hs3.2
                (fun p hp => (stage4Candidates_mem hp).2.2)
                (stage4Candidates_snd_nodup w s3 hd)
              refine ⟨fun x hx => ?_, (List.take_sublist _ _).nodup hpc.2⟩
              rcases hpc.1 x (List.mem_of_mem_take hx) with hh | hh
              · exact hs3.1 x hh
              · obtain ⟨p, hp, rfl⟩ := List.mem_map.mp hh
                exact (stage4Candidates_mem hp).2.1
            · exact ⟨fun x hx => hs3.1 x (List.mem_of_mem_take hx),
                (List.take_sublist _ _).nodup hs3.2⟩

/-- C9 witness: at the this/is/a/test dictionary (duplicate-free) and the
word `tst` with bound 5, both suggestions are dictionary words and distinct. -/
theorem c9_suggestions_witness :
    (∀ x ∈ (["test".toList, "is".toList] : List Str),
      dictContains
        (build_from_words ["this".toList, "is".toList, "a".toList, "test".toList])
        x = true) ∧
    (["test".toList, "is".toList] : List Str).Nodup :=
  c9_suggestions_in_dict_nodup "tst".toList
    (build_from_words ["this".toList, "is".toList, "a".toList, "test".toList]) 5
    ["test".toList, "is".toList]
    (build_from_words_nodup _) (by rfl)

end Spellchk
